import Mathlib

/-!
# TileEx — verification of the period-inference engine

Shallow embedding of the Go program `main.go` of TileEx (a tiling-pattern
extractor).  Go `uint32` values are modelled as `Nat` reduced mod `2^32`;
Go `int` (64-bit) arithmetic is modelled as `Int` wrapped into
`[-2^63, 2^63)` after every binary operation; Go `float64` tolerances are
modelled by exact rationals (the claims only involve constants whose
float computations round to the same integers); a Go runtime panic is
modelled by an `Option` result being `none`.
-/

namespace TileEx

/-! ### Definitions (embedding of the program) -/

/-- Embeds `type Color struct { R, G, B uint32 }`: the channel values are Go
`uint32`, modelled as naturals (reduced mod `2^32` where arithmetic on
them happens). -/
structure Color where
  R : Nat
  G : Nat
  B : Nat
deriving DecidableEq, Repr

/-- Go `uint32` subtraction `a - b`: wraps modulo `2^32`. -/
def sub32 (a b : Nat) : Nat :=
  (a % 2 ^ 32 + (2 ^ 32 - b % 2 ^ 32)) % 2 ^ 32

/-- Wrap an integer into the 64-bit two's-complement range
`[-2^63, 2^63)`: the effect of every Go `int` binary operation. -/
def i64 (z : Int) : Int :=
  (z + 2 ^ 63) % 2 ^ 64 - 2 ^ 63

/-- Go `int` multiplication (wrapping). -/
def mul64 (a b : Int) : Int := i64 (a * b)

/-- Go `int` addition (wrapping). -/
def add64 (a b : Int) : Int := i64 (a + b)

/-- Embeds `func ColorDiff(x, y Color) int`: each channel difference is a
`uint32` subtraction (wrapping mod `2^32`), converted to `int`
(value-preserving), then `R*R + G*G + B*B` in wrapping 64-bit `int`
arithmetic. -/
def ColorDiff (x y : Color) : Int :=
  let R : Int := sub32 x.R y.R
  let G : Int := sub32 x.G y.G
  let B : Int := sub32 x.B y.B
  add64 (add64 (mul64 R R) (mul64 G G)) (mul64 B B)

/-- The value `ColorDiff` actually computes on one channel whose inputs
are in the 16-bit range: `d^2` for a non-negative mathematical
difference `d`, and `d^2 + 2^33 d` (negative!) when the `uint32`
subtraction wraps. -/
def chTerm (a b : Nat) : Int :=
  if a < b then ((a : Int) - b) * ((a : Int) - b) + 2 ^ 33 * ((a : Int) - b)
  else ((a : Int) - b) * ((a : Int) - b)

/-- The inner loop of `ArrayPeriodicityJPGPlus` for one shift `k`:
`sum += ColorDiff(colors[(idx + k) % n], color)` over all positions,
accumulated in wrapping Go `int` arithmetic. -/
def sumShift (colors : List Color) (k : Nat) : Int :=
  (List.range colors.length).foldl
    (fun sum idx =>
      add64 sum (ColorDiff (colors.getD ((idx + k) % colors.length) ⟨0, 0, 0⟩)
        (colors.getD idx ⟨0, 0, 0⟩))) 0

/-- The outer loop of `ArrayPeriodicityJPGPlus` for `k` from the current
value up to `n - 1` (`rem` iterations remain), carrying the running
minimum sum and its index. -/
def jpgAux (colors : List Color) : Nat → Nat → Int → Nat → Nat
  | 0, _, _, minidx => minidx
  | rem + 1, k, minsum, minidx =>
      if sumShift colors k < minsum then
        jpgAux colors rem (k + 1) (sumShift colors k) k
      else
        jpgAux colors rem (k + 1) minsum minidx

/-- Embeds `func ArrayPeriodicityJPGPlus(colors []Color) int`: `minidx` starts
at `1`; the loop over `k in [1, n)` sets `minsum` at `k = 1` and then
keeps the first `k` attaining a strictly smaller sum.  For `n < 2` the
loop body never runs and the function returns `1`. -/
def ArrayPeriodicityJPGPlus (colors : List Color) : Nat :=
  let n := colors.length
  if n < 2 then 1
  else jpgAux colors (n - 2) 2 (sumShift colors 1) 1

/-- Embeds `frequencyMap[num]++` on an association list: increment the entry
for `num`, appending a fresh `(num, 1)` entry if absent. -/
def bump : List (Int × Int) → Int → List (Int × Int)
  | [], num => [(num, 1)]
  | (k, v) :: rest, num =>
      if k = num then (k, v + 1) :: rest else (k, v) :: bump rest num

/-- The tally of the whole multiset of per-line periods. -/
def tally (l : List Int) : List (Int × Int) :=
  l.foldl bump []

/-- The sort key used by `sort.Slice`: `pairs[i][1]` (the count) when
`preferFrequency`, otherwise `pairs[i][0]` (the period). -/
def pairKey (preferFrequency : Bool) (pr : Int × Int) : Int :=
  if preferFrequency then pr.2 else pr.1

/-- Embeds `func frequencyPairs(arr chan int, preferFrequency bool) ([][]int, int)`:
tallies the periods, sums the counts, and sorts the pairs descending by
the chosen key (`sort.Slice` with less-function
`pairs[i][pairChoice] > pairs[j][pairChoice]`; the sort is modelled by
insertion sort — Go's unstable sort differs from it only in the order of
key-tied pairs, which none of the proved properties depend on). -/
def frequencyPairs (l : List Int) (preferFrequency : Bool) :
    List (Int × Int) × Int :=
  ((tally l).insertionSort
      (fun a b => pairKey preferFrequency b ≤ pairKey preferFrequency a),
    ((tally l).map Prod.snd).sum)

/-- Go `int(x)` conversion of a float: truncation toward zero.  Here it
is applied to the exact rational `total * tol`, written as the integer
`total * tol.num` over the positive denominator `tol.den` so that the
division is pure integer arithmetic. -/
def goTrunc (z : Int) (d : Nat) : Int :=
  if z < 0 then -((-z) / (d : Int)) else z / (d : Int)

/-- The threshold scan of `main`:
`for idx < len(pairs) && pairs[idx][1] < thr { idx += 1 }`. -/
def scanIdx (thr : Int) : List (Int × Int) → Nat
  | [] => 0
  | pr :: rest => if pr.2 < thr then scanIdx thr rest + 1 else 0

/-- One axis of `main`'s selection stage: aggregate, compute the
integer threshold `int(float64(total) * tol)`, scan, and read
`pairs[idx % len(pairs)]`.  `none` models the Go panic on an empty pair
list (`idx % 0`). -/
def selectPair (periods : List Int) (preferFrequency : Bool) (tol : ℚ) :
    Option (Int × Int) :=
  let fp := frequencyPairs periods preferFrequency
  let thr : Int := goTrunc (fp.2 * tol.num) tol.den
  let idx := scanIdx thr fp.1
  if fp.1.length = 0 then none
  else some (fp.1.getD (idx % fp.1.length) (0, 0))

/-- The tolerance preprocessing of `main` (lines 197–207): when
`preferFrequency` is set the tolerance is forced to `0`, otherwise the
percentage flag is divided by `100`. -/
def effectiveTolerance (preferFrequency : Bool) (tolPercent : ℚ) : ℚ :=
  if preferFrequency then 0 else tolPercent / 100

/-- One whole axis of `main`: tolerance preprocessing plus selection. -/
def selectAxis (periods : List Int) (preferFrequency : Bool)
    (tolPercent : ℚ) : Option (Int × Int) :=
  selectPair periods preferFrequency
    (effectiveTolerance preferFrequency tolPercent)

/-- The total count over all entries matching a given key. -/
def valAt (acc : List (Int × Int)) (q : Int) : Int :=
  ((acc.filter fun pr => pr.1 = q).map Prod.snd).sum

/-! The crop step: `main` builds `targetImage := image.NewRGBA(image.Rect(0,
0, tileWidth, tileHeight))` and calls `draw.Draw(targetImage, dstRect, img,
srcRect.Min, draw.Src)`.  `draw.Draw` is modelled by its documented
semantics: the destination rectangle is clipped against the destination
bounds and against the source bounds translated to the destination, each
remaining destination point receives the source pixel at `srcRect.Min + p`,
and every other pixel of the freshly allocated RGBA buffer keeps its zero
value (transparent black).  `image.Rect` swaps a coordinate pair when given
`min > max`, so the minimum corner of `image.Rect(x0, y0, x1, y1)` is
`(min x0 x1, min y0 y1)`. -/

/-- One RGBA pixel; the zero value is transparent black. -/
structure RGBA where
  r : Nat
  g : Nat
  b : Nat
  a : Nat
deriving DecidableEq, Repr

def zeroRGBA : RGBA := ⟨0, 0, 0, 0⟩

/-- A decoded image: bounds `[0, w) × [0, h)` plus a pixel function. -/
structure Img where
  w : Int
  h : Int
  px : Int → Int → RGBA

def inBounds (img : Img) (x y : Int) : Prop :=
  0 ≤ x ∧ x < img.w ∧ 0 ≤ y ∧ y < img.h

instance (img : Img) (x y : Int) : Decidable (inBounds img x y) := by
  unfold inBounds
  infer_instance

/-- Embeds `draw.Draw(target, target.Bounds(), img, sp, draw.Src)` into a fresh
`tileWidth × tileHeight` RGBA buffer: in-bounds destination points whose
source point lies inside the source image receive the source pixel; all
other pixels stay zero. -/
def drawCrop (img : Img) (spx spy tw th : Int) : Img :=
  { w := tw, h := th,
    px := fun x y =>
      if 0 ≤ x ∧ x < tw ∧ 0 ≤ y ∧ y < th ∧
          inBounds img (spx + x) (spy + y) then
        img.px (spx + x) (spy + y)
      else zeroRGBA }

/-- The crop step of the current `main` (lines 292–299):
`srcRect := image.Rect(offsetX, offsetY, offsetX+tileWidth,
offsetY+tileHeight)`, whose minimum corner is
`(min offsetX (offsetX+tileWidth), min offsetY (offsetY+tileHeight))`. -/
def cropMain (img : Img) (offsetX offsetY tileWidth tileHeight : Int) : Img :=
  drawCrop img (min offsetX (offsetX + tileWidth))
    (min offsetY (offsetY + tileHeight)) tileWidth tileHeight

/-- The crop step of the second reference version (lines 505–512):
`srcRect := image.Rect(offsetX, offsetY, tileWidth, tileHeight)`, whose
minimum corner is `(min offsetX tileWidth, min offsetY tileHeight)`. -/
def cropOld (img : Img) (offsetX offsetY tileWidth tileHeight : Int) : Img :=
  drawCrop img (min offsetX tileWidth) (min offsetY tileHeight)
    tileWidth tileHeight

/-- The concrete 2×2 source image used in the crop counterexamples. -/
def img2 : Img :=
  { w := 2, h := 2, px := fun x y => ⟨(x + 2 * y).toNat + 1, 0, 0, 0⟩ }

/-- The concrete 8×1 source image used in the crop counterexamples. -/
def img8 : Img :=
  { w := 8, h := 1, px := fun x _ => ⟨x.toNat, 0, 0, 0⟩ }

/-! The lossless detector: `func ArrayPeriodicityPNG(colors []Color) int`
computes the classic prefix function (failure function) of the line and
returns `n - prefixArray[n-1]`.  The inner `for j > 0 && colors[i] !=
colors[j]` loop is embedded with an explicit fuel argument; the Go loop
terminates because every `prefixArray` entry is at most its index, so `j`
strictly decreases — fuel `j` is enough, and the correctness lemmas below
only ever invoke the function with that much fuel.  For an empty line the
Go code evaluates `prefixArray[-1]` and panics; the embedding returns
`none` in that case. -/

/-- The default `Color` used for (never out-of-range) `getD` reads. -/
def dC : Color := ⟨0, 0, 0⟩

/-- Embeds the loop `for j > 0 && colors[i] != colors[j] { j = prefixArray[j - 1] }`,
with `c = colors[i]`. -/
def kmpFallback (s : List Color) (pa : List Nat) (c : Color) :
    Nat → Nat → Nat
  | 0, j => j
  | fuel + 1, j =>
      if 0 < j ∧ s.getD j dC ≠ c then
        kmpFallback s pa c fuel (pa.getD (j - 1) 0)
      else j

/-- The outer loop of `ArrayPeriodicityPNG` for `i` from `pa.length` up
to `n - 1` (`rem` iterations remain): run the fallback loop, extend the
match by one on equality, and append the new entry. -/
def kmpBuild (s : List Color) : Nat → List Nat → Nat → List Nat
  | 0, pa, _ => pa
  | rem + 1, pa, j =>
      let i := pa.length
      let j1 := kmpFallback s pa (s.getD i dC) j j
      let j2 := if s.getD i dC = s.getD j1 dC then j1 + 1 else j1
      kmpBuild s rem (pa ++ [j2]) j2

/-- The full `prefixArray` of the line (`prefixArray[0] = 0`, entries
`1 .. n-1` computed by the loop). -/
def prefixArray (s : List Color) : List Nat :=
  if s.length = 0 then [] else kmpBuild s (s.length - 1) [0] 0

/-- Embeds `return n - prefixArray[n - 1]`; `none` models the index-out-of-
range panic at `n = 0`. -/
def ArrayPeriodicityPNG (s : List Color) : Option Nat :=
  if s.length = 0 then none
  else some (s.length - (prefixArray s).getD (s.length - 1) 0)

/-- States that `b` is a (proper) border length of the prefix of length `i`: the
first `b` positions coincide with the `b` positions ending at `i`. -/
def IsBord (s : List Color) (i b : Nat) : Prop :=
  b < i ∧ ∀ k, k < b → s.getD k dC = s.getD (i - b + k) dC

instance (s : List Color) (i b : Nat) : Decidable (IsBord s i b) := by
  unfold IsBord
  infer_instance

/-- The longest proper border of the prefix of length `i`. -/
def maxB (s : List Color) (i : Nat) : Nat :=
  Nat.findGreatest (fun b => IsBord s i b) (i - 1)

/-- The length of the longest proper prefix of the line that is also a
suffix, written with `take`/`drop` exactly as the specification words
it. -/
def brd (s : List Color) : Nat :=
  Nat.findGreatest (fun b => s.take b = s.drop (s.length - b))
    (s.length - 1)

/-- States that `q` is a period of the line: shifting by `q` leaves it unchanged
wherever both positions exist. -/
def hasPeriod (w : List Color) (q : Nat) : Prop :=
  ∀ i, i + q < w.length → w.getD i dC = w.getD (i + q) dC

/-- Correctness predicate for a prefix of the prefix-function array:
entry `k` is the longest proper border of the prefix of length `k+1`. -/
def PaOk (s : List Color) (pa : List Nat) : Prop :=
  ∀ k, k < pa.length → pa.getD k 0 = maxB s (k + 1)

/-! ### Theorems -/

theorem i64_of_small {z : Int} (h1 : -2 ^ 63 ≤ z) (h2 : z < 2 ^ 63) :
    i64 z = z := by
  unfold i64
  omega

theorem i64_of_high {z : Int} (h1 : 2 ^ 63 ≤ z) (h2 : z < 2 ^ 64) :
    i64 z = z - 2 ^ 64 := by
  unfold i64
  omega

/-- One channel of `ColorDiff`, for 16-bit inputs, evaluates to `chTerm`. -/
theorem channel_term_eq (a b : Nat) (ha : a < 2 ^ 16) (hb : b < 2 ^ 16) :
    mul64 (sub32 a b) (sub32 a b) = chTerm a b := by
  rcases Nat.lt_or_ge a b with hab | hab
  · have hs : sub32 a b = a + 2 ^ 32 - b := by
      unfold sub32
      have h1 : a % 2 ^ 32 = a := Nat.mod_eq_of_lt (by omega)
      have h2 : b % 2 ^ 32 = b := Nat.mod_eq_of_lt (by omega)
      rw [h1, h2]
      have : a + (2 ^ 32 - b) < 2 ^ 32 + 2 ^ 32 := by omega
      rw [Nat.mod_eq_of_lt (by omega)]
      omega
    rw [hs]
    unfold mul64 chTerm
    have hcast : ((a + 2 ^ 32 - b : Nat) : Int) = (a : Int) - b + 2 ^ 32 := by
      omega
    rw [hcast]
    simp only [if_pos hab]
    set d : Int := (a : Int) - b with hd
    have hdlo : -(2 ^ 16) < d := by omega
    have hdhi : d < 0 := by omega
    have hexp : (d + 2 ^ 32) * (d + 2 ^ 32) = d * d + 2 ^ 33 * d + 2 ^ 64 := by
      ring
    rw [hexp, i64_of_high (by nlinarith) (by nlinarith)]
    ring
  · have hs : sub32 a b = a - b := by
      unfold sub32
      have h1 : a % 2 ^ 32 = a := Nat.mod_eq_of_lt (by omega)
      have h2 : b % 2 ^ 32 = b := Nat.mod_eq_of_lt (by omega)
      rw [h1, h2]
      have : a + (2 ^ 32 - b) = (a - b) + 2 ^ 32 := by omega
      rw [this, Nat.add_mod_right, Nat.mod_eq_of_lt (by omega)]
    rw [hs]
    unfold mul64 chTerm
    have hcast : ((a - b : Nat) : Int) = (a : Int) - b := by omega
    rw [hcast]
    simp only [if_neg (by omega : ¬ a < b)]
    set d : Int := (a : Int) - b with hd
    have hdlo : (0 : Int) ≤ d := by omega
    have hdhi : d < 2 ^ 16 := by omega
    exact i64_of_small (by nlinarith) (by nlinarith)

/-- C5 (amended form): for channels in the image's native 16-bit range,
`ColorDiff x y` is the sum over channels of `chTerm`, i.e. the squared
difference for non-wrapping channels but `d^2 + 2^33 d` for channels
where `x`'s value is below `y`'s. -/
theorem ColorDiff_eq_chTerm (x y : Color)
    (hxR : x.R < 2 ^ 16) (hxG : x.G < 2 ^ 16) (hxB : x.B < 2 ^ 16)
    (hyR : y.R < 2 ^ 16) (hyG : y.G < 2 ^ 16) (hyB : y.B < 2 ^ 16) :
    ColorDiff x y = chTerm x.R y.R + chTerm x.G y.G + chTerm x.B y.B := by
  unfold ColorDiff
  dsimp only
  rw [channel_term_eq x.R y.R hxR hyR, channel_term_eq x.G y.G hxG hyG,
    channel_term_eq x.B y.B hxB hyB]
  have hbound : ∀ a b : Nat, a < 2 ^ 16 → b < 2 ^ 16 →
      -(2 ^ 50) < chTerm a b ∧ chTerm a b < 2 ^ 32 := by
    intro a b ha hb
    unfold chTerm
    split
    · constructor <;> nlinarith [sq_nonneg ((a : Int) - b)]
    · constructor <;> nlinarith [sq_nonneg ((a : Int) - b)]
  obtain ⟨h1l, h1h⟩ := hbound x.R y.R hxR hyR
  obtain ⟨h2l, h2h⟩ := hbound x.G y.G hxG hyG
  obtain ⟨h3l, h3h⟩ := hbound x.B y.B hxB hyB
  have hin : add64 (chTerm x.R y.R) (chTerm x.G y.G) =
      chTerm x.R y.R + chTerm x.G y.G := by
    unfold add64
    exact i64_of_small (by omega) (by omega)
  rw [hin]
  unfold add64
  exact i64_of_small (by omega) (by omega)

/-- C5 counterexample: with `x = (0,0,0)` and `y = (1,0,0)` — channel
values well inside the 16-bit range — `ColorDiff` returns
`-8589934591`, not the squared Euclidean distance `1`. -/
theorem ColorDiff_not_euclidean :
    ColorDiff ⟨0, 0, 0⟩ ⟨1, 0, 0⟩ = -8589934591 ∧
      ((0 : Int) - 1) ^ 2 + ((0 : Int) - 0) ^ 2 + ((0 : Int) - 0) ^ 2 = 1 := by
  constructor
  · decide
  · norm_num

/-- Witness for `ColorDiff_eq_chTerm` at concrete colors. -/
theorem ColorDiff_eq_chTerm_witness :
    ColorDiff ⟨3, 5, 7⟩ ⟨1, 9, 7⟩ = chTerm 3 1 + chTerm 5 9 + chTerm 7 7 :=
  ColorDiff_eq_chTerm ⟨3, 5, 7⟩ ⟨1, 9, 7⟩ (by decide) (by decide) (by decide)
    (by decide) (by decide) (by decide)

/-- Loop invariant for `jpgAux`: the accumulator holds the minimum over
shifts examined so far, at the earliest index attaining it. -/
theorem jpgAux_spec (colors : List Color) :
    ∀ rem k minsum minidx,
      1 ≤ minidx → minidx < k →
      minsum = sumShift colors minidx →
      (∀ j, 1 ≤ j → j < k → minsum ≤ sumShift colors j) →
      (∀ j, 1 ≤ j → j < minidx → minsum < sumShift colors j) →
      1 ≤ jpgAux colors rem k minsum minidx ∧
        jpgAux colors rem k minsum minidx < k + rem ∧
        (∀ j, 1 ≤ j → j < k + rem →
          sumShift colors (jpgAux colors rem k minsum minidx) ≤
            sumShift colors j) ∧
        (∀ j, 1 ≤ j → j < jpgAux colors rem k minsum minidx →
          sumShift colors (jpgAux colors rem k minsum minidx) <
            sumShift colors j) := by
  intro rem
  induction rem with
  | zero =>
    intro k minsum minidx h1 h2 hms hle hlt
    simp only [jpgAux]
    refine ⟨h1, by omega, ?_, ?_⟩
    · intro j hj1 hj2
      rw [← hms]
      exact hle j hj1 (by omega)
    · intro j hj1 hj2
      rw [← hms]
      exact hlt j hj1 hj2
  | succ rem ih =>
    intro k minsum minidx h1 h2 hms hle hlt
    simp only [jpgAux]
    by_cases hc : sumShift colors k < minsum
    · rw [if_pos hc]
      have := ih (k + 1) (sumShift colors k) k (by omega) (by omega) rfl
        (fun j hj1 hj2 => by
          rcases Nat.lt_or_ge j k with hjk | hjk
          · exact le_of_lt (lt_of_lt_of_le hc (hle j hj1 hjk))
          · have : j = k := by omega
            rw [this])
        (fun j hj1 hj2 => lt_of_lt_of_le hc (hle j hj1 hj2))
      exact ⟨this.1, by omega, fun j hj1 hj2 => this.2.2.1 j hj1 (by omega),
        this.2.2.2⟩
    · rw [if_neg hc]
      have := ih (k + 1) minsum minidx h1 (by omega) hms
        (fun j hj1 hj2 => by
          rcases Nat.lt_or_ge j k with hjk | hjk
          · exact hle j hj1 hjk
          · have : j = k := by omega
            rw [this]
            omega)
        hlt
      exact ⟨this.1, by omega, fun j hj1 hj2 => this.2.2.1 j hj1 (by omega),
        this.2.2.2⟩

/-- C9: for every line of length `n ≥ 2` the lossy detector returns a
shift in `[1, n-1]` whose total `ColorDiff` sum is minimal over all
shifts in `[1, n-1]`, and every strictly smaller shift has a strictly
larger sum (ties keep the earliest-evaluated shift). -/
theorem jpg_argmin (colors : List Color) (h : 2 ≤ colors.length) :
    1 ≤ ArrayPeriodicityJPGPlus colors ∧
      ArrayPeriodicityJPGPlus colors ≤ colors.length - 1 ∧
      (∀ k, 1 ≤ k → k ≤ colors.length - 1 →
        sumShift colors (ArrayPeriodicityJPGPlus colors) ≤
          sumShift colors k) ∧
      (∀ k, 1 ≤ k → k < ArrayPeriodicityJPGPlus colors →
        sumShift colors k > sumShift colors (ArrayPeriodicityJPGPlus colors)) := by
  have hn : ¬ colors.length < 2 := by omega
  unfold ArrayPeriodicityJPGPlus
  simp only [if_neg hn]
  have hspec := jpgAux_spec colors (colors.length - 2) 2 (sumShift colors 1) 1
    (by omega) (by omega) rfl
    (fun j hj1 hj2 => by
      have : j = 1 := by omega
      rw [this])
    (fun j hj1 hj2 => by omega)
  refine ⟨hspec.1, by omega, fun k hk1 hk2 => hspec.2.2.1 k hk1 (by omega),
    fun k hk1 hk2 => hspec.2.2.2 k hk1 hk2⟩

/-- Witness for `jpg_argmin`: on a concrete two-pixel line the detector
returns shift `1`. -/
theorem jpg_argmin_witness :
    ArrayPeriodicityJPGPlus [⟨0, 0, 0⟩, ⟨5, 0, 0⟩] = 1 := by
  have h := jpg_argmin [⟨0, 0, 0⟩, ⟨5, 0, 0⟩] (by decide)
  have hlen : ([⟨0, 0, 0⟩, ⟨5, 0, 0⟩] : List Color).length = 2 := rfl
  omega

/-- For the non-negative values arising here, the Go `int(...)`
truncation is the rational floor `⌊z * t⌋`. -/
theorem goTrunc_eq_floor (z : Int) (t : ℚ) (hz : 0 ≤ z) (ht : 0 ≤ t) :
    goTrunc (z * t.num) t.den = ⌊(z : ℚ) * t⌋ := by
  have hnum : 0 ≤ t.num := Rat.num_nonneg.mpr ht
  rw [goTrunc, if_neg (not_lt.mpr (mul_nonneg hz hnum))]
  have hq : (z : ℚ) * t = ((z * t.num : Int) : ℚ) / ((t.den : Nat) : ℚ) := by
    conv_lhs => rw [← Rat.num_div_den t]
    push_cast
    ring
  rw [hq, Rat.floor_intCast_div_natCast]

theorem bump_keys (acc : List (Int × Int)) (num : Int) :
    (bump acc num).map Prod.fst =
      if num ∈ acc.map Prod.fst then acc.map Prod.fst
      else acc.map Prod.fst ++ [num] := by
  induction acc with
  | nil => simp [bump]
  | cons pr rest ih =>
    obtain ⟨k, v⟩ := pr
    by_cases hk : k = num
    · subst hk
      simp [bump]
    · simp only [bump, if_neg hk, List.map_cons, ih, List.mem_cons]
      by_cases hm : num ∈ rest.map Prod.fst
      · simp [hm, hk, Ne.symm hk]
      · simp [hm, hk, Ne.symm hk]

theorem bump_valAt_self (acc : List (Int × Int)) (num : Int) :
    valAt (bump acc num) num = valAt acc num + 1 := by
  induction acc with
  | nil => simp [bump, valAt]
  | cons pr rest ih =>
    obtain ⟨k, v⟩ := pr
    by_cases hk : k = num
    · subst hk
      simp only [bump, if_pos rfl, if_true, valAt, List.filter_cons,
        decide_eq_true_eq, List.map_cons, List.sum_cons]
      ring
    · unfold valAt at ih ⊢
      simp only [bump, if_neg hk, List.filter_cons, decide_eq_true_eq]
      exact ih

theorem bump_valAt_other (acc : List (Int × Int)) (num q : Int)
    (h : q ≠ num) : valAt (bump acc num) q = valAt acc q := by
  induction acc with
  | nil =>
    unfold valAt bump
    simp [Ne.symm h]
  | cons pr rest ih =>
    obtain ⟨k, v⟩ := pr
    by_cases hk : k = num
    · subst hk
      unfold valAt
      simp only [bump, if_pos rfl, if_true, List.filter_cons,
        decide_eq_true_eq]
      rw [if_neg (Ne.symm h), if_neg (Ne.symm h)]
    · unfold valAt at ih ⊢
      simp only [bump, if_neg hk, List.filter_cons, decide_eq_true_eq]
      by_cases hq : k = q
      · rw [if_pos hq, if_pos hq, List.map_cons, List.sum_cons,
          List.map_cons, List.sum_cons, ih]
      · rw [if_neg hq, if_neg hq]
        exact ih

theorem bump_sum (acc : List (Int × Int)) (num : Int) :
    ((bump acc num).map Prod.snd).sum = (acc.map Prod.snd).sum + 1 := by
  induction acc with
  | nil => simp [bump]
  | cons pr rest ih =>
    obtain ⟨k, v⟩ := pr
    by_cases hk : k = num
    · subst hk
      simp [bump]
      ring
    · simp only [bump, if_neg hk, List.map_cons, List.sum_cons, ih]
      ring

theorem foldl_bump_valAt (l : List Int) :
    ∀ acc q, valAt (List.foldl bump acc l) q = valAt acc q + (l.count q : Int) := by
  induction l with
  | nil => simp [valAt]
  | cons a l ih =>
    intro acc q
    simp only [List.foldl_cons, ih (bump acc a) q]
    by_cases hq : q = a
    · subst hq
      rw [bump_valAt_self, List.count_cons_self]
      push_cast
      ring
    · rw [bump_valAt_other acc a q hq, List.count_cons_of_ne hq]

theorem foldl_bump_sum (l : List Int) :
    ∀ acc, ((List.foldl bump acc l).map Prod.snd).sum =
      (acc.map Prod.snd).sum + (l.length : Int) := by
  induction l with
  | nil => simp
  | cons a l ih =>
    intro acc
    simp only [List.foldl_cons, ih (bump acc a), bump_sum, List.length_cons]
    push_cast
    ring

theorem foldl_bump_keys_nodup (l : List Int) :
    ∀ acc, ((acc.map Prod.fst).Nodup) →
      ((List.foldl bump acc l).map Prod.fst).Nodup := by
  induction l with
  | nil => intro acc h; simpa using h
  | cons a l ih =>
    intro acc h
    simp only [List.foldl_cons]
    refine ih (bump acc a) ?_
    rw [bump_keys]
    by_cases hm : a ∈ acc.map Prod.fst
    · rwa [if_pos hm]
    · rw [if_neg hm, List.nodup_append]
      exact ⟨h, List.nodup_singleton a,
        fun x hx hx2 => hm ((List.mem_singleton.mp hx2) ▸ hx)⟩

theorem foldl_bump_keys_mono (l : List Int) :
    ∀ acc q, q ∈ acc.map Prod.fst →
      q ∈ (List.foldl bump acc l).map Prod.fst := by
  induction l with
  | nil => intro acc q h; simpa using h
  | cons a l ih =>
    intro acc q h
    simp only [List.foldl_cons]
    refine ih (bump acc a) q ?_
    rw [bump_keys]
    by_cases hm : a ∈ acc.map Prod.fst
    · rwa [if_pos hm]
    · rw [if_neg hm]
      exact List.mem_append_left _ h

theorem foldl_bump_keys_complete (l : List Int) :
    ∀ acc q, q ∈ l → q ∈ (List.foldl bump acc l).map Prod.fst := by
  induction l with
  | nil => intro acc q h; cases h
  | cons a l ih =>
    intro acc q h
    simp only [List.foldl_cons]
    rcases List.mem_cons.mp h with rfl | hl
    · refine foldl_bump_keys_mono l (bump acc q) q ?_
      rw [bump_keys]
      by_cases hm : q ∈ acc.map Prod.fst
      · rwa [if_pos hm]
      · rw [if_neg hm]
        exact List.mem_append_right _ (by simp)
    · exact ih (bump acc a) q hl

theorem foldl_bump_keys_sub (l : List Int) :
    ∀ acc q, q ∈ (List.foldl bump acc l).map Prod.fst →
      q ∈ acc.map Prod.fst ∨ q ∈ l := by
  induction l with
  | nil => intro acc q h; exact Or.inl (by simpa using h)
  | cons a l ih =>
    intro acc q h
    simp only [List.foldl_cons] at h
    rcases ih (bump acc a) q h with hin | hin
    · rw [bump_keys] at hin
      by_cases hm : a ∈ acc.map Prod.fst
      · rw [if_pos hm] at hin
        exact Or.inl hin
      · rw [if_neg hm] at hin
        rcases List.mem_append.mp hin with h1 | h1
        · exact Or.inl h1
        · simp only [List.mem_singleton] at h1
          exact Or.inr (by simp [h1])
    · exact Or.inr (List.mem_cons_of_mem a hin)

theorem valAt_of_mem_nodup (acc : List (Int × Int)) :
    (acc.map Prod.fst).Nodup → ∀ pr ∈ acc, valAt acc pr.1 = pr.2 := by
  induction acc with
  | nil => intro _ pr h; cases h
  | cons hd rest ih =>
    obtain ⟨k, v⟩ := hd
    intro hnd pr hpr
    simp only [List.map_cons, List.nodup_cons] at hnd
    rcases List.mem_cons.mp hpr with rfl | hrest
    · unfold valAt
      simp only [List.filter_cons, decide_eq_true_eq, if_pos rfl,
        List.map_cons, List.sum_cons]
      have hf : rest.filter (fun pr => pr.1 = (k, v).1) = [] := by
        rw [List.filter_eq_nil_iff]
        intro x hx
        simp only [decide_eq_true_eq]
        intro hx1
        exact hnd.1 (hx1 ▸ List.mem_map_of_mem Prod.fst hx)
      rw [hf]
      simp
    · have hne : pr.1 ≠ k := by
        intro hcontra
        exact hnd.1 (hcontra ▸ List.mem_map_of_mem Prod.fst hrest)
      unfold valAt at ih ⊢
      simp only [List.filter_cons, decide_eq_true_eq, if_neg (Ne.symm hne)]
      exact ih hnd.2 pr hrest

theorem tally_perm_pairs (periods : List Int) (pf : Bool) :
    (frequencyPairs periods pf).1.Perm (tally periods) :=
  List.perm_insertionSort _ (tally periods)

/-- Helper packaging all aggregation invariants of `frequencyPairs`. -/
theorem frequencyPairs_props (periods : List Int) (pf : Bool) :
    (frequencyPairs periods pf).2 = (periods.length : Int) ∧
      ((frequencyPairs periods pf).1.map Prod.fst).Nodup ∧
      (∀ pr ∈ (frequencyPairs periods pf).1,
        1 ≤ pr.2 ∧ pr.2 = (periods.count pr.1 : Int)) ∧
      ((frequencyPairs periods pf).1.map Prod.snd).sum = (periods.length : Int) ∧
      (∀ q ∈ periods, q ∈ (frequencyPairs periods pf).1.map Prod.fst) := by
  have hperm := tally_perm_pairs periods pf
  have htal : tally periods = List.foldl bump [] periods := rfl
  have hsum : ((tally periods).map Prod.snd).sum = (periods.length : Int) := by
    rw [htal, foldl_bump_sum]
    simp
  have hnodup : ((tally periods).map Prod.fst).Nodup := by
    rw [htal]
    exact foldl_bump_keys_nodup periods [] (by simp)
  have hval : ∀ q, valAt (tally periods) q = (periods.count q : Int) := by
    intro q
    rw [htal, foldl_bump_valAt]
    simp [valAt]
  refine ⟨?_, ?_, ?_, ?_, ?_⟩
  · exact hsum
  · exact ((hperm.map Prod.fst).nodup_iff).mpr hnodup
  · intro pr hpr
    have hmem : pr ∈ tally periods := hperm.subset hpr
    have hv : valAt (tally periods) pr.1 = pr.2 :=
      valAt_of_mem_nodup (tally periods) hnodup pr hmem
    have hcnt : pr.2 = (periods.count pr.1 : Int) := by
      rw [← hv, hval]
    refine ⟨?_, hcnt⟩
    have hkey : pr.1 ∈ (tally periods).map Prod.fst :=
      List.mem_map_of_mem Prod.fst hmem
    have hin : pr.1 ∈ periods := by
      rw [htal] at hkey
      rcases foldl_bump_keys_sub periods [] pr.1 hkey with h0 | h0
      · simp at h0
      · exact h0
    have : 0 < periods.count pr.1 := List.count_pos_iff.mpr hin
    omega
  · rw [((hperm.map Prod.snd).sum_eq : _ = _)]
    exact hsum
  · intro q hq
    refine ((hperm.map Prod.fst).mem_iff).mpr ?_
    rw [htal]
    exact foldl_bump_keys_complete periods [] q hq

/-- C7: for any multiset of per-line periods, the aggregator's total is
the number of lines, each pair's count is the exact multiplicity of its
period (hence at least 1), no period appears in two pairs, the counts
sum to the number of lines, and every observed period has a pair. -/
theorem frequencyPairs_partition (periods : List Int) (pf : Bool) :
    (frequencyPairs periods pf).2 = (periods.length : Int) ∧
      ((frequencyPairs periods pf).1.map Prod.fst).Nodup ∧
      (∀ pr ∈ (frequencyPairs periods pf).1,
        1 ≤ pr.2 ∧ pr.2 = (periods.count pr.1 : Int)) ∧
      ((frequencyPairs periods pf).1.map Prod.snd).sum = (periods.length : Int) ∧
      (∀ q ∈ periods, q ∈ (frequencyPairs periods pf).1.map Prod.fst) :=
  frequencyPairs_props periods pf

/-- Witness for `frequencyPairs_partition` at a concrete scan. -/
theorem frequencyPairs_partition_witness :
    (frequencyPairs [3, 3, 5] false).2 = (([3, 3, 5] : List Int).length : Int) :=
  (frequencyPairs_partition [3, 3, 5] false).1

/-- The sorted pair list is pairwise descending in the chosen key. -/
theorem pairs_sorted (periods : List Int) (pf : Bool) :
    (frequencyPairs periods pf).1.Pairwise
      (fun a b => pairKey pf b ≤ pairKey pf a) := by
  haveI htot : IsTotal (Int × Int)
      (fun a b => pairKey pf b ≤ pairKey pf a) :=
    ⟨fun a b => le_total (pairKey pf b) (pairKey pf a)⟩
  haveI htr : IsTrans (Int × Int)
      (fun a b => pairKey pf b ≤ pairKey pf a) :=
    ⟨fun _ _ _ hab hbc => le_trans hbc hab⟩
  exact List.sorted_insertionSort _ (tally periods)

theorem selectPair_eq (periods : List Int) (pf : Bool) (tol : ℚ)
    (h : (frequencyPairs periods pf).1 ≠ []) :
    selectPair periods pf tol =
      some ((frequencyPairs periods pf).1.getD
        (scanIdx (goTrunc ((frequencyPairs periods pf).2 * tol.num) tol.den)
            (frequencyPairs periods pf).1 %
          (frequencyPairs periods pf).1.length) (0, 0)) := by
  unfold selectPair
  dsimp only
  rw [if_neg (by simpa using List.length_pos.mpr h |>.ne')]

/-- C8: when `preferFrequency` is set, the tolerance is forced to `0`
and the selector returns a pair whose count is the multiplicity of its
period and is maximal among all periods, regardless of its share. -/
theorem prefer_frequency_selects_max (periods : List Int) (tolPercent : ℚ)
    (h : periods ≠ []) :
    effectiveTolerance true tolPercent = 0 ∧
      ∃ p c, selectAxis periods true tolPercent = some (p, c) ∧
        c = (periods.count p : Int) ∧
        ∀ q : Int, (periods.count q : Int) ≤ c := by
  have hpart := frequencyPairs_props periods true
  have hne : (frequencyPairs periods true).1 ≠ [] := by
    obtain ⟨a, rest, rfl⟩ := List.exists_cons_of_ne_nil h
    have := hpart.2.2.2.2 a (by simp)
    intro hcontra
    rw [hcontra] at this
    simp at this
  refine ⟨rfl, ?_⟩
  have hsel : selectAxis periods true tolPercent =
      selectPair periods true 0 := rfl
  obtain ⟨hd, tl, hpairs⟩ := List.exists_cons_of_ne_nil hne
  have hthr : goTrunc ((frequencyPairs periods true).2 * (0 : ℚ).num)
      (0 : ℚ).den = 0 := by
    norm_num [goTrunc]
  have hhd1 : 1 ≤ hd.2 := (hpart.2.2.1 hd (by rw [hpairs]; simp)).1
  have hscan : scanIdx 0 (frequencyPairs periods true).1 = 0 := by
    rw [hpairs]
    unfold scanIdx
    rw [if_neg (by omega)]
  have hres : selectPair periods true 0 = some hd := by
    rw [selectPair_eq periods true 0 hne, hthr, hscan]
    rw [hpairs]
    simp
  refine ⟨hd.1, hd.2, by rw [hsel, hres], (hpart.2.2.1 hd (by rw [hpairs]; simp)).2, ?_⟩
  intro q
  by_cases hq : q ∈ periods
  · have hkey := hpart.2.2.2.2 q hq
    obtain ⟨pr, hpr, hpq⟩ := List.mem_map.mp hkey
    have hprc : pr.2 = (periods.count q : Int) := by
      rw [(hpart.2.2.1 pr hpr).2, hpq]
    rw [← hprc]
    rcases (List.mem_cons.mp (hpairs ▸ hpr)) with rfl | htl
    · exact le_refl _
    · have hsorted := pairs_sorted periods true
      rw [hpairs] at hsorted
      have := (List.pairwise_cons.mp hsorted).1 pr htl
      simpa [pairKey] using this
  · have : periods.count q = 0 := List.count_eq_zero.mpr hq
    rw [this]
    omega

/-- Witness for `prefer_frequency_selects_max`: the forced tolerance at
a concrete invocation. -/
theorem prefer_frequency_selects_max_witness :
    effectiveTolerance true 50 = 0 :=
  (prefer_frequency_selects_max [4, 4, 7] 50 (by simp)).1

set_option maxRecDepth 40000 in
/-- C2 counterexample: aggregating 90 lines of period 4 and 10 lines of
period 7 with `preferFrequency = false` sorts the pairs descending by
period — `[(7,10), (4,90)]` — so at tolerance `0.95` the wraparound
selects the top-ranked pair `(7, 10)`: period `7` with a 10% share, not
period `4` with 90% as the claim states. -/
theorem tolerance_wraparound_cx :
    mkRat 19 20 = (0.95 : ℚ) ∧
      selectPair (List.replicate 90 (4 : Int) ++ List.replicate 10 7) false
        (mkRat 19 20) = some (7, 10) ∧ (7 : Int) ≠ 4 := by
  refine ⟨by norm_num [Rat.mkRat_eq_div], by decide, by decide⟩

set_option maxRecDepth 40000 in
/-- C2 (amended): at tolerance `0.5` the selector returns period `4`
(share 90%); at tolerance `0.95` no pair qualifies and the wraparound
returns the top pair of the period-descending sort order, `(7, 10)`. -/
theorem tolerance_selection :
    mkRat 1 2 = (0.5 : ℚ) ∧ mkRat 19 20 = (0.95 : ℚ) ∧
      selectPair (List.replicate 90 (4 : Int) ++ List.replicate 10 7) false
        (mkRat 1 2) = some (4, 90) ∧
      selectPair (List.replicate 90 (4 : Int) ++ List.replicate 10 7) false
        (mkRat 19 20) = some (7, 10) := by
  refine ⟨by norm_num [Rat.mkRat_eq_div], by norm_num [Rat.mkRat_eq_div],
    by decide, by decide⟩

/-- Characterization of the threshold scan: it stops at the first index
whose count is not below the threshold (or at the end of the list). -/
theorem scanIdx_spec (thr : Int) :
    ∀ pairs : List (Int × Int),
      scanIdx thr pairs ≤ pairs.length ∧
        (∀ i, i < scanIdx thr pairs → (pairs.getD i (0, 0)).2 < thr) ∧
        (scanIdx thr pairs < pairs.length →
          thr ≤ (pairs.getD (scanIdx thr pairs) (0, 0)).2) := by
  intro pairs
  induction pairs with
  | nil =>
    have h0 : scanIdx thr ([] : List (Int × Int)) = 0 := rfl
    rw [h0]
    exact ⟨le_refl 0, fun i hi => absurd hi (by omega),
      fun h => absurd h (by simp at h)⟩
  | cons pr rest ih =>
    have heq : scanIdx thr (pr :: rest) =
        if pr.2 < thr then scanIdx thr rest + 1 else 0 := rfl
    by_cases hc : pr.2 < thr
    · have hidx : scanIdx thr (pr :: rest) = scanIdx thr rest + 1 := by
        rw [heq, if_pos hc]
      rw [hidx]
      refine ⟨by simpa using Nat.succ_le_succ ih.1, ?_, ?_⟩
      · intro i hi
        match i with
        | 0 => simpa using hc
        | i + 1 => exact ih.2.1 i (by omega)
      · intro hlt
        have := ih.2.2 (by simpa using Nat.lt_of_succ_lt_succ hlt)
        simpa using this
    · have hidx : scanIdx thr (pr :: rest) = 0 := by
        rw [heq, if_neg hc]
      rw [hidx]
      exact ⟨Nat.zero_le _, fun i hi => absurd hi (by omega),
        fun _ => by simpa using not_lt.mp hc⟩

/-- C6 (amended): the selector skips a pair exactly when its count is
strictly below the integer-truncated threshold `⌊totalLines * t⌋`, and
accepts the first pair that is not below it — the comparison is against
`int(float64(total) * t)`, not against the exact share `count/total`. -/
theorem select_skip_iff (periods : List Int) (pf : Bool) (t : ℚ)
    (ht : 0 ≤ t) :
    (∀ i, i < scanIdx (goTrunc ((frequencyPairs periods pf).2 * t.num) t.den)
        (frequencyPairs periods pf).1 →
      ((frequencyPairs periods pf).1.getD i (0, 0)).2 <
        ⌊((periods.length : Int) : ℚ) * t⌋) ∧
      (scanIdx (goTrunc ((frequencyPairs periods pf).2 * t.num) t.den)
          (frequencyPairs periods pf).1 <
          (frequencyPairs periods pf).1.length →
        ⌊((periods.length : Int) : ℚ) * t⌋ ≤
          ((frequencyPairs periods pf).1.getD
            (scanIdx (goTrunc ((frequencyPairs periods pf).2 * t.num) t.den)
              (frequencyPairs periods pf).1) (0, 0)).2) := by
  have htot : (frequencyPairs periods pf).2 = (periods.length : Int) :=
    (frequencyPairs_props periods pf).1
  have hthr : goTrunc ((frequencyPairs periods pf).2 * t.num) t.den =
      ⌊((periods.length : Int) : ℚ) * t⌋ := by
    rw [htot]
    exact goTrunc_eq_floor (periods.length : Int) t (by positivity) ht
  have hspec := scanIdx_spec
    (goTrunc ((frequencyPairs periods pf).2 * t.num) t.den)
    (frequencyPairs periods pf).1
  rw [← hthr]
  exact ⟨hspec.2.1, hspec.2.2⟩

/-- Witness for `select_skip_iff` at a concrete scan. -/
theorem select_skip_iff_witness :
    ⌊((([3] : List Int).length : Int) : ℚ) * (0 : ℚ)⌋ ≤
      ((frequencyPairs [3] false).1.getD
        (scanIdx (goTrunc ((frequencyPairs [3] false).2 * (0 : ℚ).num)
          (0 : ℚ).den) (frequencyPairs [3] false).1) (0, 0)).2 :=
  (select_skip_iff [3] false 0 (le_refl 0)).2 (by decide)

/-- C6 counterexample: a pair holding 4 of 10 lines has share
`0.4 < 0.45`, so by the claim it should be skipped at tolerance `0.45`;
but `int(10 * 0.45) = 4` and the code compares `count < 4`, which is
false, so the selector accepts exactly this pair. -/
theorem threshold_skip_cx :
    mkRat 9 20 = (0.45 : ℚ) ∧
      ((4 : ℚ) / 10 < mkRat 9 20) ∧
      selectPair (List.replicate 4 (5 : Int) ++ List.replicate 6 3) false
        (mkRat 9 20) = some (5, 4) := by
  refine ⟨by norm_num [Rat.mkRat_eq_div], by norm_num [Rat.mkRat_eq_div],
    by decide⟩

/-- C3 (amended): the crop step never reports a geometric error; for any
offsets and (non-negative) periods it returns a `tileWidth × tileHeight`
image in which each pixel is the source pixel when the source coordinate
is in bounds, and the zero value (transparent black) otherwise — an
out-of-bounds crop rectangle is silently clipped, leaving part of the
output zero-filled. -/
theorem crop_silent_clip (img : Img) (offsetX offsetY tw th x y : Int)
    (_htw : 0 ≤ tw) (_hth : 0 ≤ th)
    (hx : 0 ≤ x) (hx2 : x < tw) (hy : 0 ≤ y) (hy2 : y < th) :
    (cropMain img offsetX offsetY tw th).w = tw ∧
      (cropMain img offsetX offsetY tw th).h = th ∧
      (cropMain img offsetX offsetY tw th).px x y =
        (if inBounds img (offsetX + x) (offsetY + y) then
          img.px (offsetX + x) (offsetY + y)
        else zeroRGBA) := by
  unfold cropMain drawCrop
  rw [min_eq_left (by omega), min_eq_left (by omega)]
  refine ⟨rfl, rfl, ?_⟩
  dsimp only
  by_cases hin : inBounds img (offsetX + x) (offsetY + y)
  · rw [if_pos hin, if_pos ⟨hx, hx2, hy, hy2, hin⟩]
  · rw [if_neg hin, if_neg (by intro hcon; exact hin hcon.2.2.2.2)]

/-- C3 counterexample: cropping `img2` (bounds `[0,2)×[0,2)`) with
offsets `(1,1)` and periods `(2,2)` requests the rectangle
`[1,3)×[1,3)`, which exceeds the source bounds; the code produces an
output image anyway — pixel `(0,0)` is copied from the source and pixel
`(1,1)` is silently left as zero fill — instead of reporting an error. -/
theorem crop_out_of_bounds_cx :
    (1 + 2 : Int) > img2.w ∧
      (cropMain img2 1 1 2 2).px 0 0 = img2.px 1 1 ∧
      img2.px 1 1 ≠ zeroRGBA ∧
      (cropMain img2 1 1 2 2).px 1 1 = zeroRGBA := by
  refine ⟨by decide, by decide, by decide, by decide⟩

/-- Witness for `crop_silent_clip` at a concrete out-of-bounds pixel. -/
theorem crop_silent_clip_witness :
    (cropMain img2 1 1 2 2).px 1 1 =
      (if inBounds img2 (1 + 1) (1 + 1) then img2.px (1 + 1) (1 + 1)
      else zeroRGBA) :=
  (crop_silent_clip img2 1 1 2 2 1 1 (by decide) (by decide) (by decide)
    (by decide) (by decide) (by decide)).2.2

/-- C10 (amended): the two crop versions agree whenever
`offsetX ≤ tileWidth` and `offsetY ≤ tileHeight` (then both source
rectangles have minimum corner `(offsetX, offsetY)`); they are *not*
equivalent in general, because `image.Rect` canonicalisation moves the
old version's minimum corner to `(min offsetX tileWidth, min offsetY
tileHeight)`. -/
theorem crops_equiv (img : Img) (offsetX offsetY tw th : Int)
    (htw : 0 ≤ tw) (hth : 0 ≤ th) (hx : offsetX ≤ tw) (hy : offsetY ≤ th) :
    cropMain img offsetX offsetY tw th = cropOld img offsetX offsetY tw th := by
  unfold cropMain cropOld
  rw [min_eq_left (by omega), min_eq_left (by omega),
    min_eq_left hx, min_eq_left hy]

/-- C10 counterexample: with `offsetX = 5 > tileWidth = 3` the two
versions read from different source columns (5 versus `min 5 3 = 3`)
and produce different images. -/
theorem crops_differ_cx :
    (cropMain img8 5 0 3 1).px 0 0 = img8.px 5 0 ∧
      (cropOld img8 5 0 3 1).px 0 0 = img8.px 3 0 ∧
      (cropMain img8 5 0 3 1).px 0 0 ≠ (cropOld img8 5 0 3 1).px 0 0 := by
  refine ⟨by decide, by decide, by decide⟩

/-- Witness for `crops_equiv` at concrete arguments. -/
theorem crops_equiv_witness :
    cropMain img2 1 1 2 2 = cropOld img2 1 1 2 2 :=
  crops_equiv img2 1 1 2 2 (by decide) (by decide) (by decide) (by decide)

theorem isBord_zero (s : List Color) (i : Nat) (hi : 1 ≤ i) :
    IsBord s i 0 :=
  ⟨hi, fun k hk => absurd hk (Nat.not_lt_zero k)⟩

theorem maxB_facts (s : List Color) (i : Nat) :
    maxB s i ≤ i - 1 ∧ (maxB s i ≠ 0 → IsBord s i (maxB s i)) ∧
      ∀ b, maxB s i < b → b ≤ i - 1 → ¬ IsBord s i b :=
  Nat.findGreatest_eq_iff.mp (rfl :
    Nat.findGreatest (fun b => IsBord s i b) (i - 1) = maxB s i)

theorem maxB_max (s : List Color) (i b : Nat) (h : IsBord s i b) :
    b ≤ maxB s i := by
  by_contra hlt
  push_neg at hlt
  exact (maxB_facts s i).2.2 b hlt (by have := h.1; omega) h

theorem isBord_trans_down (s : List Color) {i b c : Nat}
    (hb : IsBord s i b) (hc : IsBord s i c) (hcb : c < b) :
    IsBord s b c := by
  refine ⟨hcb, fun k hk => ?_⟩
  have h1 := hc.2 k hk
  have h2 := hb.2 (b - c + k) (by omega)
  have he : i - b + (b - c + k) = i - c + k := by
    have := hb.1
    omega
  rw [he] at h2
  rw [h1, ← h2]

theorem isBord_trans_up (s : List Color) {i b c : Nat}
    (hbc : IsBord s b c) (hb : IsBord s i b) : IsBord s i c := by
  refine ⟨lt_trans hbc.1 hb.1, fun k hk => ?_⟩
  have h1 := hbc.2 k hk
  have h2 := hb.2 (b - c + k) (by have := hbc.1; omega)
  have he : i - b + (b - c + k) = i - c + k := by
    have := hbc.1
    have := hb.1
    omega
  rw [he] at h2
  exact h1.trans h2

theorem isBord_ext (s : List Color) {i b : Nat} :
    IsBord s (i + 1) (b + 1) ↔
      IsBord s i b ∧ s.getD b dC = s.getD i dC := by
  constructor
  · rintro ⟨h1, h2⟩
    have hb : b < i := by omega
    refine ⟨⟨hb, fun k hk => ?_⟩, ?_⟩
    · have hx := h2 k (by omega)
      have he : i + 1 - (b + 1) + k = i - b + k := by omega
      rwa [he] at hx
    · have hx := h2 b (by omega)
      have he : i + 1 - (b + 1) + b = i := by omega
      rwa [he] at hx
  · rintro ⟨⟨hb, hf⟩, hlast⟩
    refine ⟨by omega, fun k hk => ?_⟩
    rcases Nat.lt_or_ge k b with hkb | hkb
    · have hx := hf k hkb
      have he : i + 1 - (b + 1) + k = i - b + k := by omega
      rw [he]
      exact hx
    · have hkb2 : k = b := by omega
      subst hkb2
      have he : i + 1 - (k + 1) + k = i := by omega
      rw [he]
      exact hlast

/-- Correctness of the fallback loop: starting from a border (or `0`)
that dominates every border matching `colors[i]`, it returns a border
(or `0`) that still dominates them and either matches `colors[i]` or is
`0` with no match at `0` either. -/
theorem kmpFallback_spec (s : List Color) (pa : List Nat) (i : Nat)
    (hpa : PaOk s pa) (hlen : i ≤ pa.length) :
    ∀ fuel j, j ≤ fuel →
      (IsBord s i j ∨ j = 0) →
      (∀ b, IsBord s i b → s.getD b dC = s.getD i dC → b ≤ j) →
      (IsBord s i (kmpFallback s pa (s.getD i dC) fuel j) ∨
          kmpFallback s pa (s.getD i dC) fuel j = 0) ∧
        (∀ b, IsBord s i b → s.getD b dC = s.getD i dC →
          b ≤ kmpFallback s pa (s.getD i dC) fuel j) ∧
        (s.getD (kmpFallback s pa (s.getD i dC) fuel j) dC = s.getD i dC ∨
          (kmpFallback s pa (s.getD i dC) fuel j = 0 ∧
            s.getD 0 dC ≠ s.getD i dC)) := by
  intro fuel
  induction fuel with
  | zero =>
    intro j hj hinv1 hinv2
    have hj0 : j = 0 := by omega
    subst hj0
    have hr : kmpFallback s pa (s.getD i dC) 0 0 = 0 := rfl
    rw [hr]
    refine ⟨Or.inr rfl, hinv2, ?_⟩
    by_cases heq : s.getD 0 dC = s.getD i dC
    · exact Or.inl heq
    · exact Or.inr ⟨rfl, heq⟩
  | succ fuel ih =>
    intro j hj hinv1 hinv2
    have hr : kmpFallback s pa (s.getD i dC) (fuel + 1) j =
        if 0 < j ∧ s.getD j dC ≠ s.getD i dC then
          kmpFallback s pa (s.getD i dC) fuel (pa.getD (j - 1) 0)
        else j := rfl
    by_cases hcond : 0 < j ∧ s.getD j dC ≠ s.getD i dC
    · rw [hr, if_pos hcond]
      have hbj : IsBord s i j := by
        rcases hinv1 with h | h
        · exact h
        · omega
      have hji : j < i := hbj.1
      have hjlen : j - 1 < pa.length := by omega
      have hget : pa.getD (j - 1) 0 = maxB s j := by
        have := hpa (j - 1) hjlen
        have he : j - 1 + 1 = j := by omega
        rwa [he] at this
      rw [hget]
      have hfuel2 : maxB s j ≤ fuel := by
        have := (maxB_facts s j).1
        omega
      refine ih (maxB s j) hfuel2 ?_ ?_
      · by_cases hz : maxB s j = 0
        · exact Or.inr hz
        · exact Or.inl (isBord_trans_up s ((maxB_facts s j).2.1 hz) hbj)
      · intro b hbord hmatch
        have hble : b ≤ j := hinv2 b hbord hmatch
        have hbne : b ≠ j := by
          intro hcontra
          subst hcontra
          exact hcond.2 hmatch
        exact maxB_max s j b (isBord_trans_down s hbj hbord (by omega))
    · rw [hr, if_neg hcond]
      refine ⟨hinv1, hinv2, ?_⟩
      rcases not_and_or.mp hcond with h0 | hmatch
      · have hj0 : j = 0 := by omega
        subst hj0
        by_cases heq : s.getD 0 dC = s.getD i dC
        · exact Or.inl heq
        · exact Or.inr ⟨rfl, heq⟩
      · exact Or.inl (not_not.mp hmatch)

theorem getD_append_left {α : Type} (l l2 : List α) (n : Nat) (d : α)
    (h : n < l.length) : (l ++ l2).getD n d = l.getD n d := by
  simp only [List.getD_eq_getElem?_getD, List.getElem?_append_left h]

theorem getD_append_after {α : Type} (l l2 : List α) (n : Nat) (d : α)
    (h : l.length ≤ n) : (l ++ l2).getD n d = l2.getD (n - l.length) d := by
  simp only [List.getD_eq_getElem?_getD, List.getElem?_append_right h]

/-- One step of the prefix-function recurrence: the longest border of
the prefix of length `i+1` is the fallback result extended by `1` on a
match, else `0`. -/
theorem maxB_succ_eq (s : List Color) (i r : Nat) (hi : 1 ≤ i)
    (h1 : IsBord s i r ∨ r = 0)
    (h2 : ∀ b, IsBord s i b → s.getD b dC = s.getD i dC → b ≤ r)
    (h3 : s.getD r dC = s.getD i dC ∨
      (r = 0 ∧ s.getD 0 dC ≠ s.getD i dC)) :
    maxB s (i + 1) = if s.getD i dC = s.getD r dC then r + 1 else r := by
  have hri : r < i := by
    rcases h1 with h | h
    · exact h.1
    · omega
  rcases h3 with hmatch | ⟨hr0, hne⟩
  · rw [if_pos hmatch.symm]
    have hbir : IsBord s i r := by
      rcases h1 with h | h
      · exact h
      · rw [h]
        exact isBord_zero s i hi
    show Nat.findGreatest (fun b => IsBord s (i + 1) b) (i + 1 - 1) = r + 1
    have hsimp : i + 1 - 1 = i := rfl
    rw [hsimp]
    refine Nat.findGreatest_eq_iff.mpr ⟨by omega, ?_, ?_⟩
    · intro _
      exact isBord_ext s |>.mpr ⟨hbir, hmatch⟩
    · intro n hn hni hB
      match n, hn with
      | c + 1, hn =>
        obtain ⟨hbord, hmatch2⟩ := isBord_ext s |>.mp hB
        have := h2 c hbord hmatch2
        omega
  · subst hr0
    rw [if_neg (fun hcontra => hne hcontra.symm)]
    show Nat.findGreatest (fun b => IsBord s (i + 1) b) (i + 1 - 1) = 0
    have hsimp : i + 1 - 1 = i := rfl
    rw [hsimp]
    refine Nat.findGreatest_eq_iff.mpr ⟨Nat.zero_le i, fun h => absurd rfl h, ?_⟩
    intro n hn hni hB
    match n, hn with
    | c + 1, hn =>
      obtain ⟨hbord, hmatch2⟩ := isBord_ext s |>.mp hB
      have hc0 : c = 0 := by
        have := h2 c hbord hmatch2
        omega
      subst hc0
      exact hne hmatch2

/-- Main loop invariant: starting from a correct prefix of the
prefix-function array whose last entry is `j`, the remaining iterations
extend it to a correct array of full length. -/
theorem kmpBuild_spec (s : List Color) :
    ∀ rem (pa : List Nat) (j : Nat), 1 ≤ pa.length → PaOk s pa →
      j = pa.getD (pa.length - 1) 0 →
      (kmpBuild s rem pa j).length = pa.length + rem ∧
        PaOk s (kmpBuild s rem pa j) := by
  intro rem
  induction rem with
  | zero =>
    intro pa j h1 hpa hj
    exact ⟨rfl, hpa⟩
  | succ rem ih =>
    intro pa j h1 hpa hj
    have hjval : j = maxB s pa.length := by
      rw [hj]
      have := hpa (pa.length - 1) (by omega)
      have he : pa.length - 1 + 1 = pa.length := by omega
      rwa [he] at this
    have hfb := kmpFallback_spec s pa pa.length hpa (le_refl _) j j
      (le_refl j)
      (by
        by_cases hz : j = 0
        · exact Or.inr hz
        · rw [hjval] at hz ⊢
          exact Or.inl ((maxB_facts s pa.length).2.1 hz))
      (by
        intro b hbord hmatch
        rw [hjval]
        exact maxB_max s pa.length b hbord)
    have hstep := maxB_succ_eq s pa.length
      (kmpFallback s pa (s.getD pa.length dC) j j) (by omega)
      hfb.1 hfb.2.1 hfb.2.2
    have hunfold : kmpBuild s (rem + 1) pa j =
        kmpBuild s rem
          (pa ++ [if s.getD pa.length dC =
              s.getD (kmpFallback s pa (s.getD pa.length dC) j j) dC then
            kmpFallback s pa (s.getD pa.length dC) j j + 1
          else kmpFallback s pa (s.getD pa.length dC) j j])
          (if s.getD pa.length dC =
              s.getD (kmpFallback s pa (s.getD pa.length dC) j j) dC then
            kmpFallback s pa (s.getD pa.length dC) j j + 1
          else kmpFallback s pa (s.getD pa.length dC) j j) := rfl
    have hj2 : (if s.getD pa.length dC =
        s.getD (kmpFallback s pa (s.getD pa.length dC) j j) dC then
          kmpFallback s pa (s.getD pa.length dC) j j + 1
        else kmpFallback s pa (s.getD pa.length dC) j j) =
        maxB s (pa.length + 1) := hstep.symm
    rw [hunfold, hj2]
    have hpa2 : PaOk s (pa ++ [maxB s (pa.length + 1)]) := by
      intro k hk
      rw [List.length_append, List.length_singleton] at hk
      rcases Nat.lt_or_ge k pa.length with hki | hki
      · rw [getD_append_left _ _ _ _ hki]
        exact hpa k hki
      · have hkeq : k = pa.length := by omega
        subst hkeq
        rw [getD_append_after _ _ _ _ (le_refl _)]
        simp
    have hlen2 : 1 ≤ (pa ++ [maxB s (pa.length + 1)]).length := by
      rw [List.length_append]
      omega
    have hlast : maxB s (pa.length + 1) =
        (pa ++ [maxB s (pa.length + 1)]).getD
          ((pa ++ [maxB s (pa.length + 1)]).length - 1) 0 := by
      rw [List.length_append, List.length_singleton]
      have he : pa.length + 1 - 1 = pa.length := rfl
      rw [he, getD_append_after _ _ _ _ (le_refl _)]
      simp
    have hres := ih (pa ++ [maxB s (pa.length + 1)])
      (maxB s (pa.length + 1)) hlen2 hpa2 hlast
    refine ⟨?_, hres.2⟩
    rw [hres.1, List.length_append, List.length_singleton]
    omega

theorem prefixArray_spec (s : List Color) (h : 1 ≤ s.length) :
    (prefixArray s).length = s.length ∧ PaOk s (prefixArray s) := by
  unfold prefixArray
  rw [if_neg (by omega)]
  have h0 : PaOk s [0] := by
    intro k hk
    simp only [List.length_singleton] at hk
    have hk0 : k = 0 := by omega
    subst hk0
    show (0 : Nat) = maxB s 1
    rfl
  have hb := kmpBuild_spec s (s.length - 1) [0] 0 (by simp) h0 (by simp)
  refine ⟨?_, hb.2⟩
  rw [hb.1, List.length_singleton]
  omega

theorem getD_eq_getElem_of_lt {α : Type} (l : List α) (n : Nat) (d : α)
    (h : n < l.length) : l.getD n d = l[n] := by
  simp only [List.getD_eq_getElem?_getD, List.getElem?_eq_getElem h,
    Option.getD_some]

/-- The specification-level border (`take b = drop (n - b)`) coincides
with the pointwise border predicate. -/
theorem bord_iff_td (s : List Color) (b : Nat) (hb : b ≤ s.length) :
    (s.take b = s.drop (s.length - b)) ↔
      ∀ k, k < b → s.getD k dC = s.getD (s.length - b + k) dC := by
  have hlt : (s.take b).length = b := by
    simp only [List.length_take]
    omega
  have hld : (s.drop (s.length - b)).length = b := by
    simp only [List.length_drop]
    omega
  constructor
  · intro heq k hk
    have hk1 : k < s.length := by omega
    have hk2 : s.length - b + k < s.length := by omega
    have hkt : k < (s.take b).length := by omega
    have hkd : k < (s.drop (s.length - b)).length := by omega
    rw [getD_eq_getElem_of_lt s k dC hk1, getD_eq_getElem_of_lt s _ dC hk2]
    have h1 : s[k] = (s.take b)[k] := (List.getElem_take s).symm
    have h2 : (s.take b)[k] = (s.drop (s.length - b))[k] :=
      List.getElem_of_eq heq hkt
    have h3 : (s.drop (s.length - b))[k] = s[s.length - b + k] :=
      List.getElem_drop s
    rw [h1, h2, h3]
  · intro hpt
    apply List.ext_getElem (hlt.trans hld.symm)
    intro n h1 h2
    rw [List.getElem_take, List.getElem_drop]
    have hn : n < b := by omega
    have := hpt n hn
    rw [getD_eq_getElem_of_lt s n dC (by omega),
      getD_eq_getElem_of_lt s _ dC (by omega)] at this
    exact this

theorem findGreatest_congr (P Q : Nat → Prop) [DecidablePred P]
    [DecidablePred Q] :
    ∀ k, (∀ m, m ≤ k → (P m ↔ Q m)) →
      Nat.findGreatest P k = Nat.findGreatest Q k := by
  intro k
  induction k with
  | zero => intro _; rfl
  | succ k ih =>
    intro h
    rw [Nat.findGreatest_succ, Nat.findGreatest_succ]
    by_cases hp : P (k + 1)
    · rw [if_pos hp, if_pos ((h (k + 1) (le_refl _)).mp hp)]
    · rw [if_neg hp, if_neg (fun hq => hp ((h (k + 1) (le_refl _)).mpr hq))]
      exact ih (fun m hm => h m (by omega))

/-- The longest-border value computed pointwise at the full length is
exactly the specification-level `brd`. -/
theorem brd_eq_maxB (s : List Color) (h : 1 ≤ s.length) :
    brd s = maxB s s.length := by
  unfold brd maxB
  apply findGreatest_congr
  intro m hm
  rw [bord_iff_td s m (by omega)]
  unfold IsBord
  constructor
  · intro hpt
    exact ⟨by omega, hpt⟩
  · intro hpt
    exact hpt.2

theorem repeat_length (w : List Color) :
    ∀ m, ((List.replicate m w).flatten).length = m * w.length := by
  intro m
  induction m with
  | zero => simp
  | succ m ih =>
    rw [List.replicate_succ, List.flatten_cons, List.length_append, ih]
    ring

theorem repeat_getD (w : List Color) (_hw : 1 ≤ w.length) :
    ∀ m i, i < m * w.length →
      ((List.replicate m w).flatten).getD i dC = w.getD (i % w.length) dC := by
  intro m
  induction m with
  | zero =>
    intro i hi
    omega
  | succ m ih =>
    intro i hi
    rw [List.replicate_succ, List.flatten_cons]
    rcases Nat.lt_or_ge i w.length with hil | hil
    · rw [getD_append_left _ _ _ _ hil, Nat.mod_eq_of_lt hil]
    · rw [getD_append_after _ _ _ _ hil]
      have hsm : (m + 1) * w.length = m * w.length + w.length := by ring
      have hlt : i - w.length < m * w.length := by omega
      rw [ih (i - w.length) hlt, Nat.mod_eq_sub_mod hil]

theorem repeat_hasPeriod (w : List Color) (hw : 1 ≤ w.length) (m : Nat) :
    hasPeriod ((List.replicate m w).flatten) w.length := by
  intro i hi
  rw [repeat_length] at hi
  rw [repeat_getD w hw m i (by omega),
    repeat_getD w hw m (i + w.length) (by omega)]
  congr 1
  rw [Nat.add_mod_right]

/-- At the full length, a border of length `b` is the same thing as a
period of length `n - b`. -/
theorem isBord_iff_period (s : List Color) (b : Nat) (hb : b < s.length) :
    IsBord s s.length b ↔ hasPeriod s (s.length - b) := by
  unfold IsBord hasPeriod
  constructor
  · rintro ⟨_, hf⟩ i hi
    have hib : i < b := by omega
    have hx := hf i hib
    rwa [show s.length - b + i = i + (s.length - b) by omega] at hx
  · intro hp
    refine ⟨hb, fun k hk => ?_⟩
    have hx := hp k (by omega)
    rwa [show k + (s.length - b) = s.length - b + k by omega] at hx

/-- For a block with no shorter internal period repeated `m ≥ 2` times,
the longest border of the whole line has length `n - |w|`. -/
theorem repeat_brd (w : List Color) (m : Nat) (hw : 1 ≤ w.length)
    (hm : 2 ≤ m)
    (hprim : ∀ q, 1 ≤ q → q < w.length → ¬ hasPeriod w q) :
    brd ((List.replicate m w).flatten) =
      ((List.replicate m w).flatten).length - w.length := by
  have hn : ((List.replicate m w).flatten).length = m * w.length :=
    repeat_length w m
  have h2p : 2 * w.length ≤ ((List.replicate m w).flatten).length := by
    rw [hn]
    exact Nat.mul_le_mul_right _ hm
  have hn1 : 1 ≤ ((List.replicate m w).flatten).length := by omega
  rw [brd_eq_maxB _ hn1]
  apply le_antisymm
  · by_contra hgt
    push_neg at hgt
    have hmaxne : maxB ((List.replicate m w).flatten)
        ((List.replicate m w).flatten).length ≠ 0 := by omega
    have hbord := (maxB_facts ((List.replicate m w).flatten)
      ((List.replicate m w).flatten).length).2.1 hmaxne
    have hmaxlt := (maxB_facts ((List.replicate m w).flatten)
      ((List.replicate m w).flatten).length).1
    have hper := (isBord_iff_period _ _ (by omega)).mp hbord
    set q := ((List.replicate m w).flatten).length -
      maxB ((List.replicate m w).flatten)
        ((List.replicate m w).flatten).length with hq
    have hq1 : 1 ≤ q := by omega
    have hq2 : q < w.length := by omega
    refine hprim q hq1 hq2 ?_
    intro i hi
    have hiw : i < w.length := by omega
    have hiqw : i + q < w.length := hi
    have h1 : w.getD i dC = ((List.replicate m w).flatten).getD i dC := by
      rw [repeat_getD w hw m i (by omega), Nat.mod_eq_of_lt hiw]
    have h2 : w.getD (i + q) dC =
        ((List.replicate m w).flatten).getD (i + q) dC := by
      rw [repeat_getD w hw m (i + q) (by omega), Nat.mod_eq_of_lt hiqw]
    rw [h1, h2]
    exact hper i (by omega)
  · apply maxB_max
    rw [isBord_iff_period _ _ (by omega)]
    have he : ((List.replicate m w).flatten).length -
        (((List.replicate m w).flatten).length - w.length) = w.length := by
      omega
    rw [he]
    exact repeat_hasPeriod w hw m

/-- C1: for every non-empty line, `ArrayPeriodicityPNG` returns the
line length minus the length of the longest proper prefix that is also
a suffix (the prefix-function value at the last position); consequently
for a line that is a block with no shorter internal period repeated
`m ≥ 2` times, it returns exactly the block length. -/
theorem png_period_correct (s : List Color) (h : 1 ≤ s.length) :
    ArrayPeriodicityPNG s = some (s.length - brd s) ∧
      ∀ (w : List Color) (m : Nat), 2 ≤ m → 1 ≤ w.length →
        (∀ q, 1 ≤ q → q < w.length → ¬ hasPeriod w q) →
        s = (List.replicate m w).flatten →
        ArrayPeriodicityPNG s = some w.length := by
  have hpa := prefixArray_spec s h
  have hmain : ArrayPeriodicityPNG s = some (s.length - brd s) := by
    unfold ArrayPeriodicityPNG
    rw [if_neg (by omega)]
    have hg := hpa.2 (s.length - 1) (by rw [hpa.1]; omega)
    rw [hg, show s.length - 1 + 1 = s.length by omega, ← brd_eq_maxB s h]
  refine ⟨hmain, ?_⟩
  intro w m hm hw hprim hs
  subst hs
  rw [hmain, repeat_brd w m hw hm hprim]
  have hn : ((List.replicate m w).flatten).length = m * w.length :=
    repeat_length w m
  have h2p : 2 * w.length ≤ ((List.replicate m w).flatten).length := by
    rw [hn]
    exact Nat.mul_le_mul_right _ hm
  congr 1
  omega

/-- Witness for `png_period_correct`: the block `(0,0,0),(1,0,0)` has no
period `1`, and repeated twice the detector returns period `2`. -/
theorem png_period_correct_witness :
    ArrayPeriodicityPNG [dC, ⟨1, 0, 0⟩, dC, ⟨1, 0, 0⟩] = some 2 := by
  have hprim : ∀ q, 1 ≤ q → q < ([dC, ⟨1, 0, 0⟩] : List Color).length →
      ¬ hasPeriod [dC, ⟨1, 0, 0⟩] q := by
    intro q h1 h2
    have hl : ([dC, ⟨1, 0, 0⟩] : List Color).length = 2 := rfl
    have hq : q = 1 := by omega
    subst hq
    intro hp
    exact absurd (hp 0 (by decide)) (by decide)
  exact (png_period_correct [dC, ⟨1, 0, 0⟩, dC, ⟨1, 0, 0⟩] (by decide)).2
    [dC, ⟨1, 0, 0⟩] 2 (by omega) (by decide) hprim (by decide)

/-- C4 counterexample: on the empty line the lossless detector does not
return any sentinel — the Go code evaluates `prefixArray[-1]`, an
index-out-of-range panic, modelled by `none`. -/
theorem png_empty_panics : ArrayPeriodicityPNG ([] : List Color) = none :=
  rfl

/-- C4 (amended): a line of length `1` yields the sentinel `1` from both
detectors without crashing, and the empty line yields `1` from the lossy
detector; the lossless detector, however, has no sentinel for the empty
line — it indexes `prefixArray[-1]` and panics (`none`). -/
theorem degenerate_lines :
    ArrayPeriodicityPNG ([] : List Color) = none ∧
      ArrayPeriodicityJPGPlus ([] : List Color) = 1 ∧
      (∀ c : Color, ArrayPeriodicityPNG [c] = some 1) ∧
      (∀ c : Color, ArrayPeriodicityJPGPlus [c] = 1) := by
  exact ⟨rfl, rfl, fun c => rfl, fun c => rfl⟩

/-- Witness for `degenerate_lines` at a concrete color. -/
theorem degenerate_lines_witness : ArrayPeriodicityPNG [dC] = some 1 :=
  degenerate_lines.2.2.1 dC

end TileEx
